import Mathlib

/-!
Verification of `alias_sample` (Vose's alias method, file `alias_sample.go`).

The construction `InitWithSeed` and the sampler `Next` are embedded shallowly.
The numeric carrier of the construction is kept generic: the algorithm is
written once, over a type with the arithmetic operations and the boolean
comparison the Go code uses, and is instantiated

* at `ℚ`, the exact-arithmetic reading of the `float64` computation (no
  rounding, so the "within floating-point tolerance" invariants become exact
  equalities), and
* at `FP`, a model of IEEE-754 double values with `NaN` and signed infinities
  but exact (unrounded) finite arithmetic, used to examine the behaviour on
  zero-sum weight vectors where `0.0/0.0 = NaN` arises.

Go slices become `List`s.  The `deque` worklists are only ever used through
`PushBack` / `PopBack`, i.e. as stacks; they are represented as lists whose
head is the back of the deque, so `PushBack` is `cons` and `PopBack` takes the
head.  The `for` loop of the construction is embedded with an explicit
iteration budget (`fuel`); `initWithSeed` passes `n`, which is provably enough
since each iteration removes one element from the combined worklists (the
termination argument of the loop), and a fuel-irrelevance lemma is proved.
The pseudo-random generator (`math/rand`) is external to the repository and is
modelled as an abstract source of integer and real draws indexed by the number
of draws made so far.
-/

/-- A model of IEEE-754 binary64 values: finite values carried exactly as
rationals (arithmetic on finite values is exact, rounding and overflow are not
modelled, and there is no negative zero), plus the two infinities and `NaN`.
`FP.inf true` is `-∞`, `FP.inf false` is `+∞`. -/
inductive FP where
  | num : ℚ → FP
  | inf : Bool → FP
  | nan : FP
deriving DecidableEq

namespace FP

/-- IEEE negation. -/
def neg : FP → FP
  | num a => num (-a)
  | inf s => inf (!s)
  | nan => nan

/-- IEEE addition: `NaN` propagates, and opposite infinities give `NaN`. -/
def add : FP → FP → FP
  | nan, _ => nan
  | _, nan => nan
  | inf s, inf t => if s = t then inf s else nan
  | inf s, num _ => inf s
  | num _, inf s => inf s
  | num a, num b => num (a + b)

/-- IEEE subtraction, `x - y = x + (-y)`. -/
def sub (x y : FP) : FP := add x (neg y)

/-- IEEE multiplication: `NaN` propagates, `±∞ * 0 = NaN`. -/
def mul : FP → FP → FP
  | nan, _ => nan
  | _, nan => nan
  | inf s, inf t => inf (xor s t)
  | inf s, num a => if a = 0 then nan else inf (xor s (decide (a < 0)))
  | num a, inf s => if a = 0 then nan else inf (xor s (decide (a < 0)))
  | num a, num b => num (a * b)

/-- IEEE division: `0/0 = NaN`, `x/0 = ±∞` for finite `x ≠ 0`, `x/±∞ = 0`
for finite `x`, `±∞ / ±∞ = NaN`.  (Zeros are unsigned in this model.) -/
def div : FP → FP → FP
  | nan, _ => nan
  | _, nan => nan
  | inf _, inf _ => nan
  | inf s, num b => inf (xor s (decide (b < 0)))
  | num _, inf _ => num 0
  | num a, num b =>
    if b = 0 then (if a = 0 then nan else inf (decide (a < 0)))
    else num (a / b)

/-- IEEE comparison `x ≤ y` as a boolean: any comparison with `NaN` is
`false`. -/
def ble : FP → FP → Bool
  | nan, _ => false
  | _, nan => false
  | inf true, _ => true
  | inf false, inf false => true
  | inf false, _ => false
  | num _, inf s => !s
  | num a, num b => decide (a ≤ b)

instance : Add FP := ⟨FP.add⟩
instance : Sub FP := ⟨FP.sub⟩
instance : Mul FP := ⟨FP.mul⟩
instance : Div FP := ⟨FP.div⟩
instance : Zero FP := ⟨FP.num 0⟩
instance : One FP := ⟨FP.num 1⟩
instance : NatCast FP := ⟨fun n => FP.num n⟩

end FP

/-- Boolean order comparison used by the Go code (`>=` is `ble` with the
arguments swapped).  On `ℚ` it is the decidable order; on `FP` it has the
IEEE `NaN` semantics. -/
class BLe (α : Type) where
  ble : α → α → Bool

instance : BLe ℚ := ⟨fun a b => decide (a ≤ b)⟩
instance : BLe FP := ⟨FP.ble⟩

/-- The state of Vose's construction: the working normalized weights
(`probs2` in the source), the two output tables, and the two worklists
(each a deque used as a stack, head = back). -/
structure BuildState (α : Type) where
  w : List α
  probability : List α
  aliasT : List ℕ
  small : List ℕ
  large : List ℕ
deriving DecidableEq

/-- The pairing loop of `InitWithSeed` (`for !(small.Len() == 0) && !(large.Len() == 0)`),
lines 103-127 of `alias_sample.go`.  One iteration pops `less` from the back
of `small` and `more` from the back of `large`, sets
`probability[less] = probs2[less] * n` and `alias[less] = more`, updates
`probs2[more] = (probs2[more] + probs2[less]) - average`, and pushes `more`
back onto `large` if `probs2[more] >= 1/n`, else onto `small`.  `fuel` is the
iteration budget; the caller passes the combined worklist length, which the
termination argument shows is enough (the loop exits on its own before the
fuel runs out). -/
def pairLoop {α : Type} [Add α] [Sub α] [Mul α] [Div α] [Zero α] [One α]
    [NatCast α] [BLe α] (n : ℕ) :
    ℕ → List α → List α → List ℕ → List ℕ → List ℕ → BuildState α
  | 0, w, p, a, small, large => ⟨w, p, a, small, large⟩
  | fuel + 1, w, p, a, less :: small, more :: large =>
    let p' := p.set less (w.getD less 0 * (n : α))
    let a' := a.set less more
    let wm := (w.getD more 0 + w.getD less 0) - 1 / (n : α)
    let w' := w.set more wm
    if BLe.ble ((1 : α) / (n : α)) wm then
      pairLoop n fuel w' p' a' small (more :: large)
    else
      pairLoop n fuel w' p' a' (more :: small) large
  | _ + 1, w, p, a, small, large => ⟨w, p, a, small, large⟩

/-- One drain loop of `InitWithSeed` (lines 134-140): pop every index off a
worklist and set its probability entry to `1.0`. -/
def drainFill {α : Type} [One α] (p : List α) (idxs : List ℕ) : List α :=
  idxs.foldl (fun q i => q.set i 1) p

/-- The running total `tot` of the input weights (lines 67-70). -/
def listTotal {α : Type} [Add α] [Zero α] (probs : List α) : α :=
  probs.foldl (· + ·) 0

/-- The normalized copy `probs2` of the weights (lines 64-74):
`probs2[i] = probs[i] / tot`. -/
def normWeights {α : Type} [Add α] [Zero α] [Div α] (probs : List α) : List α :=
  probs.map (fun x => x / listTotal probs)

/-- The initial `small` worklist (lines 86-95): indices with
`probs2[i] >= average` failing, pushed back in index order (head = back of
the deque, hence the reversal). -/
def initialSmall {α : Type} [Div α] [Zero α] [One α] [NatCast α] [BLe α]
    (w : List α) (n : ℕ) : List ℕ :=
  ((List.range n).filter (fun i => !BLe.ble ((1 : α) / (n : α)) (w.getD i 0))).reverse

/-- The initial `large` worklist (lines 86-95): indices with
`probs2[i] >= average`, pushed back in index order. -/
def initialLarge {α : Type} [Div α] [Zero α] [One α] [NatCast α] [BLe α]
    (w : List α) (n : ℕ) : List ℕ :=
  ((List.range n).filter (fun i => BLe.ble ((1 : α) / (n : α)) (w.getD i 0))).reverse

/-- The construction state after the pairing loop, starting from the
normalized weights, zero-initialized output tables and the initial
worklists. -/
def buildState {α : Type} [Add α] [Sub α] [Mul α] [Div α] [Zero α] [One α]
    [NatCast α] [BLe α] (probs : List α) : BuildState α :=
  let n := probs.length
  let w := normWeights probs
  pairLoop n n w (List.replicate n 0) (List.replicate n 0)
    (initialSmall w n) (initialLarge w n)

/-- The table construction of `InitWithSeed` (lines 53-148): `none` models
the `SampleError` return for an empty input; otherwise the probability table
(after both drain loops) and the alias table are returned. -/
def initWithSeed {α : Type} [Add α] [Sub α] [Mul α] [Div α] [Zero α] [One α]
    [NatCast α] [BLe α] (probs : List α) : Option (List α × List ℕ) :=
  if probs.isEmpty then none
  else
    let st := buildState probs
    some (drainFill (drainFill st.probability st.small) st.large, st.aliasT)

/-- Abstract model of the `math/rand` generator: `intn t b` is the value of
an `Intn(b)` call made when `t` draws have already happened, `float64 t`
likewise for `Float64()`. -/
structure RandSrc where
  intn : ℕ → ℕ → ℕ
  float64 : ℕ → ℚ

/-- The generator contract of `math/rand`: `Intn(b)` is in `[0, b)` for
`b > 0`, and `Float64()` is in `[0.0, 1.0)`. -/
def RandSrc.Valid (src : RandSrc) : Prop :=
  (∀ t b, 0 < b → src.intn t b < b) ∧
  (∀ t, 0 ≤ src.float64 t ∧ src.float64 t < 1)

/-- The `AliasSampler` struct: the two tables plus the generator state
(the source and the number of draws made so far). -/
structure AliasSampler where
  src : RandSrc
  pos : ℕ
  probability : List ℚ
  aliasT : List ℕ

/-- `InitWithSeed` at the sampler level: build the tables and pair them with
a fresh generator. -/
def InitWithSeed (probs : List ℚ) (src : RandSrc) : Option AliasSampler :=
  (initWithSeed probs).map (fun t => ⟨src, 0, t.1, t.2⟩)

/-- `Next` (lines 150-163): draw `column := rand.Intn(len(probability))`,
then `coinToss := rand.Float64() < probability[column]`; return `column` on
success and `alias[column]` on failure. -/
def Next (s : AliasSampler) : ℕ × AliasSampler :=
  let column := s.src.intn s.pos s.probability.length
  let coinToss := s.src.float64 (s.pos + 1) < s.probability.getD column 0
  (if coinToss then column else s.aliasT.getD column 0,
    { s with pos := s.pos + 2 })

/-- Iteration counter for the pairing loop: mirrors `pairLoop` exactly and
counts the number of iterations the loop performs. -/
def pairSteps {α : Type} [Add α] [Sub α] [Mul α] [Div α] [Zero α] [One α]
    [NatCast α] [BLe α] (n : ℕ) :
    ℕ → List α → List α → List ℕ → List ℕ → List ℕ → ℕ
  | 0, _, _, _, _, _ => 0
  | fuel + 1, w, p, a, less :: small, more :: large =>
    let p' := p.set less (w.getD less 0 * (n : α))
    let a' := a.set less more
    let wm := (w.getD more 0 + w.getD less 0) - 1 / (n : α)
    let w' := w.set more wm
    if BLe.ble ((1 : α) / (n : α)) wm then
      1 + pairSteps n fuel w' p' a' small (more :: large)
    else
      1 + pairSteps n fuel w' p' a' (more :: small) large
  | _ + 1, _, _, _, _, _ => 0

/-- The total probability mass the pair of tables routes to outcome `k`
(the defining invariant of the alias method): `probability[k]/n` from `k`'s
own column plus `(1 - probability[i])/n` from every column `i` whose alias
is `k`. -/
def massTo (p : List ℚ) (a : List ℕ) (n k : ℕ) : ℚ :=
  p.getD k 0 / n +
    ∑ i ∈ Finset.range n, if a.getD i 0 = k then (1 - p.getD i 0) / n else 0

/-- The probability mass routed to outcome `k` by the columns already
retired from the worklists (`act` is the combined worklist of still-active
indices). -/
def massAcc (p : List ℚ) (a : List ℕ) (act : List ℕ) (n k : ℕ) : ℚ :=
  ∑ i ∈ Finset.range n,
    if i ∈ act then 0
    else ((if i = k then p.getD i 0 else 0) +
      (if a.getD i 0 = k then 1 - p.getD i 0 else 0)) / n

example : initWithSeed ([1, 1] : List ℚ) = some ([1, 1], [0, 0]) := by
  with_unfolding_all rfl
example : initWithSeed ([] : List ℚ) = none := by with_unfolding_all rfl
example : initWithSeed ([FP.num 0, FP.num 0]) =
    some ([FP.num 1, FP.num 1], [0, 0]) := by with_unfolding_all rfl

/-! ### Basic list lemmas -/

theorem getD_set_self {α : Type} (l : List α) (i : ℕ) (v d : α)
    (h : i < l.length) : (l.set i v).getD i d = v := by
  simp [List.getD_eq_getElem?_getD, List.getElem?_set, h]

theorem getD_set_ne {α : Type} (l : List α) {i j : ℕ} (v : α) (d : α)
    (h : i ≠ j) : (l.set i v).getD j d = l.getD j d := by
  simp [List.getD_eq_getElem?_getD, List.getElem?_set, h]

theorem getD_replicate {α : Type} (n i : ℕ) (v d : α) :
    (List.replicate n v).getD i d = if i < n then v else d := by
  rcases lt_or_le i n with h | h
  · simp [List.getD_eq_getElem?_getD, List.getElem?_replicate, h]
  · rw [List.getD_eq_default _ _ (by simpa using h), if_neg (by omega)]

theorem length_drainFill {α : Type} [One α] (p : List α) (idxs : List ℕ) :
    (drainFill p idxs).length = p.length := by
  induction idxs generalizing p with
  | nil => rfl
  | cons i is ih => simpa [drainFill, List.foldl_cons] using ih (p.set i 1)

theorem drainFill_getD {α : Type} [One α] (p : List α) (idxs : List ℕ)
    (k : ℕ) (d : α) :
    (drainFill p idxs).getD k d =
      if k ∈ idxs ∧ k < p.length then 1 else p.getD k d := by
  induction idxs generalizing p with
  | nil => simp [drainFill]
  | cons i is ih =>
    have step : drainFill p (i :: is) = drainFill (p.set i 1) is := rfl
    rw [step, ih (p.set i 1)]
    by_cases hki : k = i
    · subst hki
      by_cases hlen : k < p.length
      · by_cases hmem : k ∈ is <;>
          simp [hmem, hlen, List.length_set, getD_set_self _ _ _ _ hlen]
      · have hk : p.length ≤ k := le_of_not_lt hlen
        have h1 : (p.set k 1).getD k d = d :=
          List.getD_eq_default _ _ (by simpa using hk)
        have h2 : p.getD k d = d := List.getD_eq_default _ _ hk
        rw [if_neg (by simp [List.length_set, hlen]),
          if_neg (by simp [hlen]), h1, h2]
    · have hne : (p.set i 1).getD k d = p.getD k d := getD_set_ne p _ _ (Ne.symm hki)
      simp only [List.getD_eq_getElem?_getD] at hne
      by_cases hmem : k ∈ is <;>
        simp [List.length_set, hmem, hne, hki, List.mem_cons]

theorem sum_range_getD (l : List ℚ) :
    ∑ i ∈ Finset.range l.length, l.getD i 0 = l.sum := by
  induction l with
  | nil => simp
  | cons x xs ih =>
    rw [List.length_cons, Finset.sum_range_succ']
    simp only [List.getD_cons_succ, List.getD_cons_zero, List.sum_cons]
    rw [ih, add_comm]

theorem listTotal_eq_sum (probs : List ℚ) : listTotal probs = probs.sum := by
  rw [listTotal, List.sum_eq_foldl]

theorem normWeights_getD (probs : List ℚ) (k : ℕ) (h : k < probs.length) :
    (normWeights probs).getD k 0 = probs.getD k 0 / probs.sum := by
  rw [normWeights, ← listTotal_eq_sum]
  rw [List.getD_eq_getElem?_getD, List.getElem?_map,
    List.getD_eq_getElem?_getD, List.getElem?_eq_getElem h]
  simp

theorem length_normWeights {α : Type} [Add α] [Zero α] [Div α]
    (probs : List α) : (normWeights probs).length = probs.length := by
  simp [normWeights]

/-! ### Basic facts about the pairing loop -/

theorem ble_rat (a b : ℚ) : BLe.ble a b = decide (a ≤ b) := rfl

theorem pairLoop_small_nil {α : Type} [Add α] [Sub α] [Mul α] [Div α]
    [Zero α] [One α] [NatCast α] [BLe α] (n fuel : ℕ) (w p : List α)
    (a : List ℕ) (large : List ℕ) :
    pairLoop n fuel w p a [] large = ⟨w, p, a, [], large⟩ := by
  cases fuel <;> rfl

theorem pairLoop_large_nil {α : Type} [Add α] [Sub α] [Mul α] [Div α]
    [Zero α] [One α] [NatCast α] [BLe α] (n fuel : ℕ) (w p : List α)
    (a : List ℕ) (small : List ℕ) :
    pairLoop n fuel w p a small [] = ⟨w, p, a, small, []⟩ := by
  cases fuel <;> cases small <;> rfl

/-- One unfolding of the pairing loop in terms of the boolean comparison. -/
theorem pairLoop_cons_gen {α : Type} [Add α] [Sub α] [Mul α] [Div α]
    [Zero α] [One α] [NatCast α] [BLe α] (n fuel : ℕ) (w p : List α)
    (a : List ℕ) (less more : ℕ) (small large : List ℕ) :
    pairLoop n (fuel + 1) w p a (less :: small) (more :: large) =
      if BLe.ble ((1 : α) / (n : α)) ((w.getD more 0 + w.getD less 0) - 1 / (n : α)) then
        pairLoop n fuel (w.set more ((w.getD more 0 + w.getD less 0) - 1 / (n : α)))
          (p.set less (w.getD less 0 * (n : α))) (a.set less more)
          small (more :: large)
      else
        pairLoop n fuel (w.set more ((w.getD more 0 + w.getD less 0) - 1 / (n : α)))
          (p.set less (w.getD less 0 * (n : α))) (a.set less more)
          (more :: small) large := rfl

/-- One unfolding of the iteration counter. -/
theorem pairSteps_cons_gen {α : Type} [Add α] [Sub α] [Mul α] [Div α]
    [Zero α] [One α] [NatCast α] [BLe α] (n fuel : ℕ) (w p : List α)
    (a : List ℕ) (less more : ℕ) (small large : List ℕ) :
    pairSteps n (fuel + 1) w p a (less :: small) (more :: large) =
      if BLe.ble ((1 : α) / (n : α)) ((w.getD more 0 + w.getD less 0) - 1 / (n : α)) then
        1 + pairSteps n fuel (w.set more ((w.getD more 0 + w.getD less 0) - 1 / (n : α)))
          (p.set less (w.getD less 0 * (n : α))) (a.set less more)
          small (more :: large)
      else
        1 + pairSteps n fuel (w.set more ((w.getD more 0 + w.getD less 0) - 1 / (n : α)))
          (p.set less (w.getD less 0 * (n : α))) (a.set less more)
          (more :: small) large := by
  by_cases h : BLe.ble ((1 : α) / (n : α))
      ((w.getD more 0 + w.getD less 0) - 1 / (n : α)) <;>
    simp [pairSteps, h]

/-- One unfolding of the pairing loop at `ℚ`: the re-classification of `more`
is the exact comparison of the updated weight against `1/n`. -/
theorem pairLoop_cons (n fuel : ℕ) (w p : List ℚ) (a : List ℕ)
    (less more : ℕ) (small large : List ℕ) :
    pairLoop n (fuel + 1) w p a (less :: small) (more :: large) =
      if 1 / (n : ℚ) ≤ (w.getD more 0 + w.getD less 0) - 1 / (n : ℚ) then
        pairLoop n fuel (w.set more ((w.getD more 0 + w.getD less 0) - 1 / (n : ℚ)))
          (p.set less (w.getD less 0 * (n : ℚ))) (a.set less more)
          small (more :: large)
      else
        pairLoop n fuel (w.set more ((w.getD more 0 + w.getD less 0) - 1 / (n : ℚ)))
          (p.set less (w.getD less 0 * (n : ℚ))) (a.set less more)
          (more :: small) large := by
  by_cases h : 1 / (n : ℚ) ≤ (w.getD more 0 + w.getD less 0) - 1 / (n : ℚ) <;>
    simp [pairLoop, ble_rat, h]

theorem pairLoop_lengths {α : Type} [Add α] [Sub α] [Mul α] [Div α]
    [Zero α] [One α] [NatCast α] [BLe α] (n : ℕ) :
    ∀ (fuel : ℕ) (w p : List α) (a : List ℕ) (small large : List ℕ),
      (pairLoop n fuel w p a small large).w.length = w.length ∧
      (pairLoop n fuel w p a small large).probability.length = p.length ∧
      (pairLoop n fuel w p a small large).aliasT.length = a.length := by
  intro fuel
  induction fuel with
  | zero => intro w p a small large; exact ⟨rfl, rfl, rfl⟩
  | succ fuel ih =>
    intro w p a small large
    match small, large with
    | [], large => rw [pairLoop_small_nil]; exact ⟨rfl, rfl, rfl⟩
    | less :: small, [] => rw [pairLoop_large_nil]; exact ⟨rfl, rfl, rfl⟩
    | less :: small, more :: large =>
      rw [pairLoop_cons_gen]
      split <;>
        · obtain ⟨h1, h2, h3⟩ := ih _ _ _ _ _
          exact ⟨by rw [h1, List.length_set], by rw [h2, List.length_set],
            by rw [h3, List.length_set]⟩

theorem pairLoop_exit {α : Type} [Add α] [Sub α] [Mul α] [Div α]
    [Zero α] [One α] [NatCast α] [BLe α] (n : ℕ) :
    ∀ (fuel : ℕ) (w p : List α) (a : List ℕ) (small large : List ℕ),
      small.length + large.length ≤ fuel →
      (pairLoop n fuel w p a small large).small = [] ∨
      (pairLoop n fuel w p a small large).large = [] := by
  intro fuel
  induction fuel with
  | zero =>
    intro w p a small large h
    have hs : small = [] := List.length_eq_zero.mp (by omega)
    subst hs
    rw [pairLoop_small_nil]
    exact Or.inl rfl
  | succ fuel ih =>
    intro w p a small large h
    match small, large with
    | [], large => rw [pairLoop_small_nil]; exact Or.inl rfl
    | less :: small, [] => rw [pairLoop_large_nil]; exact Or.inr rfl
    | less :: small, more :: large =>
      rw [pairLoop_cons_gen]
      simp only [List.length_cons] at h
      split
      · exact ih _ _ _ _ _ (by simp only [List.length_cons]; omega)
      · exact ih _ _ _ _ _ (by simp only [List.length_cons]; omega)

theorem pairLoop_fuel_irrel {α : Type} [Add α] [Sub α] [Mul α] [Div α]
    [Zero α] [One α] [NatCast α] [BLe α] (n : ℕ) :
    ∀ (fuel₁ fuel₂ : ℕ) (w p : List α) (a : List ℕ) (small large : List ℕ),
      small.length + large.length ≤ fuel₁ →
      small.length + large.length ≤ fuel₂ →
      pairLoop n fuel₁ w p a small large = pairLoop n fuel₂ w p a small large := by
  intro fuel₁
  induction fuel₁ with
  | zero =>
    intro fuel₂ w p a small large h₁ h₂
    have hs : small = [] := List.length_eq_zero.mp (by omega)
    subst hs
    rw [pairLoop_small_nil, pairLoop_small_nil]
  | succ fuel ih =>
    intro fuel₂ w p a small large h₁ h₂
    match small, large with
    | [], large => rw [pairLoop_small_nil, pairLoop_small_nil]
    | less :: small, [] => rw [pairLoop_large_nil, pairLoop_large_nil]
    | less :: small, more :: large =>
      match fuel₂ with
      | 0 => simp at h₂
      | fuel₂ + 1 =>
        rw [pairLoop_cons_gen, pairLoop_cons_gen]
        simp only [List.length_cons] at h₁ h₂
        split <;>
          · apply ih <;> · simp only [List.length_cons]; omega

theorem pairSteps_le {α : Type} [Add α] [Sub α] [Mul α] [Div α]
    [Zero α] [One α] [NatCast α] [BLe α] (n : ℕ) :
    ∀ (fuel : ℕ) (w p : List α) (a : List ℕ) (small large : List ℕ),
      pairSteps n fuel w p a small large ≤ small.length + large.length - 1 := by
  intro fuel
  induction fuel with
  | zero => intro w p a small large; exact Nat.zero_le _
  | succ fuel ih =>
    intro w p a small large
    match small, large with
    | [], large => exact Nat.zero_le _
    | less :: small, [] => exact Nat.zero_le _
    | less :: small, more :: large =>
      rw [pairSteps_cons_gen]
      split
      · have := ih (w.set more ((w.getD more 0 + w.getD less 0) - 1 / (n : α)))
          (p.set less (w.getD less 0 * (n : α))) (a.set less more)
          small (more :: large)
        simp only [List.length_cons] at this ⊢
        omega
      · have := ih (w.set more ((w.getD more 0 + w.getD less 0) - 1 / (n : α)))
          (p.set less (w.getD less 0 * (n : α))) (a.set less more)
          (more :: small) large
        simp only [List.length_cons] at this ⊢
        omega

/-! ### Structural invariant of the loop (holds for arbitrary weights) -/

/-- Structural facts preserved by the pairing loop regardless of the weight
values: the worklists hold distinct indices below `n`, every alias entry is
below `n`, and indices still on a worklist have their alias entry at its
zero-initialized value. -/
structure StructInv (n : ℕ) (a : List ℕ) (small large : List ℕ) : Prop where
  npos : 0 < n
  nodup : (small ++ large).Nodup
  mem_lt : ∀ i ∈ small ++ large, i < n
  alias_lt : ∀ i, a.getD i 0 < n
  alias_act : ∀ i ∈ small ++ large, a.getD i 0 = 0

theorem mem_initialSmall {α : Type} [Div α] [Zero α] [One α] [NatCast α]
    [BLe α] (w : List α) (n i : ℕ) :
    i ∈ initialSmall w n ↔
      i < n ∧ ¬BLe.ble ((1 : α) / (n : α)) (w.getD i 0) = true := by
  simp [initialSmall, List.mem_reverse, List.mem_filter, List.mem_range]

theorem mem_initialLarge {α : Type} [Div α] [Zero α] [One α] [NatCast α]
    [BLe α] (w : List α) (n i : ℕ) :
    i ∈ initialLarge w n ↔
      i < n ∧ BLe.ble ((1 : α) / (n : α)) (w.getD i 0) = true := by
  simp [initialLarge, List.mem_reverse, List.mem_filter, List.mem_range]

theorem structInv_initial {α : Type} [Div α] [Zero α] [One α] [NatCast α]
    [BLe α] (w : List α) (n : ℕ) (hn : 0 < n) :
    StructInv n (List.replicate n 0) (initialSmall w n) (initialLarge w n) := by
  refine ⟨hn, ?_, ?_, ?_, ?_⟩
  · refine List.Nodup.append ?_ ?_ ?_
    · exact List.nodup_reverse.mpr ((List.nodup_range n).filter _)
    · exact List.nodup_reverse.mpr ((List.nodup_range n).filter _)
    · intro i hi hj
      rw [mem_initialSmall] at hi
      rw [mem_initialLarge] at hj
      exact hi.2 hj.2
  · intro i hi
    rcases List.mem_append.mp hi with h | h
    · exact ((mem_initialSmall w n i).mp h).1
    · exact ((mem_initialLarge w n i).mp h).1
  · intro i
    rw [getD_replicate]
    split <;> exact hn
  · intro i _
    rw [getD_replicate]
    split <;> rfl

theorem pairLoop_structInv {α : Type} [Add α] [Sub α] [Mul α] [Div α]
    [Zero α] [One α] [NatCast α] [BLe α] (n : ℕ) :
    ∀ (fuel : ℕ) (w p : List α) (a : List ℕ) (small large : List ℕ),
      StructInv n a small large →
      StructInv n (pairLoop n fuel w p a small large).aliasT
        (pairLoop n fuel w p a small large).small
        (pairLoop n fuel w p a small large).large := by
  intro fuel
  induction fuel with
  | zero => intro w p a small large h; exact h
  | succ fuel ih =>
    intro w p a small large h
    match small, large with
    | [], large => rw [pairLoop_small_nil]; exact h
    | less :: small, [] => rw [pairLoop_large_nil]; exact h
    | less :: small, more :: large =>
      obtain ⟨hn, hnodup, hmem, halias, hact⟩ := h
      have htail : (small ++ more :: large).Nodup :=
        (List.nodup_cons.mp (by simpa using hnodup)).2
      have hless_notin : less ∉ small ++ more :: large :=
        (List.nodup_cons.mp (by simpa using hnodup)).1
      have hperm : (small ++ more :: large).Perm (more :: (small ++ large)) :=
        List.perm_middle
      have hmore_lt : more < n := hmem more (by simp)
      -- the alias table after this iteration
      have halias' : ∀ i, (a.set less more).getD i 0 < n := by
        intro i
        by_cases hi : i = less
        · subst hi
          by_cases hlen : i < a.length
          · rw [getD_set_self _ _ _ _ hlen]; exact hmore_lt
          · rw [List.getD_eq_default _ _ (by simpa using le_of_not_lt hlen)]
            exact hn
        · rw [getD_set_ne _ _ _ (fun hh => hi hh.symm)]
          exact halias i
      have hact' : ∀ i ∈ small ++ more :: large, (a.set less more).getD i 0 = 0 := by
        intro i hi
        have hne : i ≠ less := fun hh => hless_notin (hh ▸ hi)
        rw [getD_set_ne _ _ _ (fun hh => hne hh.symm)]
        exact hact i (by simp [List.mem_append, List.mem_cons] at hi ⊢; tauto)
      rw [pairLoop_cons_gen]
      split
      · refine ih _ _ _ _ _ ⟨hn, by simpa using htail, ?_, halias', ?_⟩
        · intro i hi
          exact hmem i (by simp [List.mem_append, List.mem_cons] at hi ⊢; tauto)
        · intro i hi
          exact hact' i (by simpa using hi)
      · refine ih _ _ _ _ _ ⟨hn, ?_, ?_, halias', ?_⟩
        · show ((more :: small) ++ large).Nodup
          exact List.perm_middle.nodup htail
        · intro i hi
          exact hmem i (by simp [List.mem_append, List.mem_cons] at hi ⊢; tauto)
        · intro i hi
          exact hact' i (by simp [List.mem_append, List.mem_cons] at hi ⊢; tauto)

/-! ### Arithmetic invariant of the loop at the exact-arithmetic carrier -/

theorem sum_map_div (l : List ℚ) (c : ℚ) :
    (l.map (fun x => x / c)).sum = l.sum / c := by
  induction l with
  | nil => simp
  | cons x xs ih => simp [ih, add_div]

/-- The arithmetic loop invariant, at the exact-arithmetic carrier `ℚ`,
relative to the target distribution `W` (the normalized input weights).
`act` is the combined worklist.  The key field is `mass`: the mass already
routed to `k` by retired columns, plus `k`'s own remaining working weight if
it is still on a worklist, is exactly `W k` at every point of the loop. -/
structure ActInv (n : ℕ) (W : ℕ → ℚ) (w p : List ℚ) (a : List ℕ)
    (act : List ℕ) : Prop where
  npos : 0 < n
  wlen : w.length = n
  plen : p.length = n
  alen : a.length = n
  nodup : act.Nodup
  mem_lt : ∀ i ∈ act, i < n
  sum_act : ∑ i ∈ act.toFinset, w.getD i 0 = (act.length : ℚ) / n
  w_nonneg : ∀ i ∈ act, 0 ≤ w.getD i 0
  p_range : ∀ i, i < n → i ∉ act → 0 ≤ p.getD i 0 ∧ p.getD i 0 ≤ 1
  mass : ∀ k, k < n →
    massAcc p a act n k + (if k ∈ act then w.getD k 0 else 0) = W k

theorem massAcc_congr (p : List ℚ) (a : List ℕ) (act₁ act₂ : List ℕ)
    (n k : ℕ) (h : ∀ i, i ∈ act₁ ↔ i ∈ act₂) :
    massAcc p a act₁ n k = massAcc p a act₂ n k := by
  refine Finset.sum_congr rfl fun i _ => ?_
  by_cases hi : i ∈ act₁
  · simp [hi, (h i).mp hi]
  · simp [hi, mt (h i).mpr hi]

theorem ActInv.perm {n : ℕ} {W : ℕ → ℚ} {w p : List ℚ} {a : List ℕ}
    {act₁ act₂ : List ℕ} (hp : act₁.Perm act₂)
    (h : ActInv n W w p a act₁) : ActInv n W w p a act₂ := by
  obtain ⟨npos, wlen, plen, alen, nodup, mem_lt, sum_act, w_nonneg, p_range, mass⟩ := h
  refine ⟨npos, wlen, plen, alen, hp.nodup nodup,
    fun i hi => mem_lt i (hp.mem_iff.mpr hi), ?_, 
    fun i hi => w_nonneg i (hp.mem_iff.mpr hi),
    fun i hi hni => p_range i hi (fun hh => hni (hp.mem_iff.mp hh)), ?_⟩
  · rw [← List.toFinset_eq_of_perm _ _ hp, ← hp.length_eq]
    exact sum_act
  · intro k hk
    rw [massAcc_congr p a act₂ act₁ n k (fun i => hp.mem_iff.symm)]
    by_cases hka : k ∈ act₁
    · rw [if_pos (hp.mem_iff.mp hka)]
      simpa [hka] using mass k hk
    · rw [if_neg (fun hh => hka (hp.mem_iff.mpr hh))]
      simpa [hka] using mass k hk

/-- The classification facts carried alongside `ActInv`: every index on
`small` has working weight strictly below the average `1/n`, every index on
`large` at least the average. -/
def Classified (n : ℕ) (w : List ℚ) (small large : List ℕ) : Prop :=
  (∀ i ∈ small, w.getD i 0 < 1 / (n : ℚ)) ∧
  (∀ i ∈ large, 1 / (n : ℚ) ≤ w.getD i 0)

theorem actInv_initial (probs : List ℚ) (hne : probs ≠ [])
    (hnn : ∀ x ∈ probs, 0 ≤ x) (hsum : probs.sum ≠ 0) :
    ActInv probs.length (fun k => probs.getD k 0 / probs.sum)
      (normWeights probs) (List.replicate probs.length 0)
      (List.replicate probs.length 0)
      (initialSmall (normWeights probs) probs.length ++
        initialLarge (normWeights probs) probs.length) ∧
    Classified probs.length (normWeights probs)
      (initialSmall (normWeights probs) probs.length)
      (initialLarge (normWeights probs) probs.length) := by
  set n := probs.length with hn
  have npos : 0 < n := List.length_pos.mpr hne
  have nQ : ((n : ℚ)) ≠ 0 := Nat.cast_ne_zero.mpr npos.ne'
  set w := normWeights probs with hw
  have wlen : w.length = n := length_normWeights probs
  have hmemact : ∀ i, i ∈ initialSmall w n ++ initialLarge w n ↔ i < n := by
    intro i
    rw [List.mem_append, mem_initialSmall, mem_initialLarge]
    by_cases hb : BLe.ble ((1 : ℚ) / (n : ℚ)) (w.getD i 0) = true <;> tauto
  have hstruct := structInv_initial w n npos
  constructor
  · refine ⟨npos, wlen, by simp, by simp, hstruct.nodup, hstruct.mem_lt,
      ?_, ?_, ?_, ?_⟩
    · -- the initial worklists partition `range n`, and the normalized
      -- weights sum to 1 = n * (1/n)
      have htf : (initialSmall w n ++ initialLarge w n).toFinset = Finset.range n := by
        ext i
        rw [List.mem_toFinset, hmemact, Finset.mem_range]
      have hcard : (initialSmall w n ++ initialLarge w n).length = n := by
        rw [← List.toFinset_card_of_nodup hstruct.nodup, htf, Finset.card_range]
      have hws : w.sum = 1 := by
        rw [hw, normWeights, listTotal_eq_sum, sum_map_div, div_self hsum]
      rw [hcard]
      calc ∑ i ∈ (initialSmall w n ++ initialLarge w n).toFinset, w.getD i 0
          = ∑ i ∈ Finset.range w.length, w.getD i 0 := by rw [htf, wlen]
        _ = w.sum := sum_range_getD w
        _ = 1 := hws
        _ = (n : ℚ) / n := (div_self nQ).symm
    · intro i hi
      have hilt : i < n := hstruct.mem_lt i hi
      rw [normWeights_getD probs i (hn ▸ hilt)]
      have hpos : 0 < probs.sum :=
        lt_of_le_of_ne (List.sum_nonneg hnn) (Ne.symm hsum)
      have : 0 ≤ probs.getD i 0 := by
        rw [List.getD_eq_getElem probs 0 (hn ▸ hilt)]
        exact hnn _ (List.getElem_mem _)
      positivity
    · intro i hilt hni
      exact absurd ((hmemact i).mpr hilt) hni
    · intro k hk
      have h0 : massAcc (List.replicate n 0) (List.replicate n 0)
          (initialSmall w n ++ initialLarge w n) n k = 0 := by
        refine Finset.sum_eq_zero fun i hi => ?_
        rw [if_pos ((hmemact i).mpr (Finset.mem_range.mp hi))]
      rw [h0, if_pos ((hmemact k).mpr hk), zero_add]
      exact normWeights_getD probs k (hn ▸ hk)
  · constructor
    · intro i hi
      have := ((mem_initialSmall w n i).mp hi).2
      rw [ble_rat] at this
      simpa using not_le.mp (by simpa using this)
    · intro i hi
      have := ((mem_initialLarge w n i).mp hi).2
      rw [ble_rat] at this
      simpa using this

/-- One iteration of the pairing loop preserves the arithmetic invariant:
popping `less` (below average) and `more` (at least average), retiring
`less` with `probability[less] = w[less] * n` and `alias[less] = more`, and
moving the surplus onto `more`. -/
theorem actInv_step (n : ℕ) (W : ℕ → ℚ) (w p : List ℚ) (a : List ℕ)
    (less more : ℕ) (small large : List ℕ)
    (hinv : ActInv n W w p a ((less :: small) ++ (more :: large)))
    (hless : w.getD less 0 < 1 / (n : ℚ))
    (hmore : 1 / (n : ℚ) ≤ w.getD more 0) :
    ActInv n W (w.set more ((w.getD more 0 + w.getD less 0) - 1 / (n : ℚ)))
      (p.set less (w.getD less 0 * (n : ℚ))) (a.set less more)
      (more :: (small ++ large)) := by
  obtain ⟨npos, wlen, plen, alen, nodup, mem_lt, sum_act, w_nonneg, p_range, mass⟩ := hinv
  have nQ : ((n : ℚ)) ≠ 0 := Nat.cast_ne_zero.mpr npos.ne'
  have nQpos : (0 : ℚ) < n := by positivity
  have hperm : ((less :: small) ++ (more :: large)).Perm
      (less :: more :: (small ++ large)) := List.Perm.cons less List.perm_middle
  have hnodup2 : (less :: more :: (small ++ large)).Nodup := hperm.nodup nodup
  have hlm : less ≠ more := by
    intro h
    exact (List.nodup_cons.mp hnodup2).1 (h ▸ List.mem_cons_self _ _)
  have hlr : less ∉ small ++ large := fun h =>
    (List.nodup_cons.mp hnodup2).1 (List.mem_cons_of_mem _ h)
  have hmr : more ∉ small ++ large :=
    (List.nodup_cons.mp (List.nodup_cons.mp hnodup2).2).1
  have hrest : (small ++ large).Nodup :=
    (List.nodup_cons.mp (List.nodup_cons.mp hnodup2).2).2
  have hmemact : ∀ i, i ∈ (less :: small) ++ (more :: large) ↔
      i = less ∨ i = more ∨ i ∈ small ++ large := by
    intro i
    rw [hperm.mem_iff]
    simp [List.mem_cons]
  have hless_n : less < n := mem_lt less (by simp)
  have hmore_n : more < n := mem_lt more ((hmemact more).mpr (Or.inr (Or.inl rfl)))
  have hless_in : less ∈ (less :: small) ++ (more :: large) := by simp
  have hmore_in : more ∈ (less :: small) ++ (more :: large) :=
    (hmemact more).mpr (Or.inr (Or.inl rfl))
  have hwm : (w.set more ((w.getD more 0 + w.getD less 0) - 1 / (n : ℚ))).getD more 0
      = (w.getD more 0 + w.getD less 0) - 1 / (n : ℚ) :=
    getD_set_self _ _ _ _ (wlen ▸ hmore_n)
  have hwne : ∀ i, i ≠ more →
      (w.set more ((w.getD more 0 + w.getD less 0) - 1 / (n : ℚ))).getD i 0
        = w.getD i 0 := fun i hi => getD_set_ne _ _ _ (fun h => hi h.symm)
  have hpl : (p.set less (w.getD less 0 * (n : ℚ))).getD less 0
      = w.getD less 0 * (n : ℚ) := getD_set_self _ _ _ _ (plen ▸ hless_n)
  have hpne : ∀ i, i ≠ less →
      (p.set less (w.getD less 0 * (n : ℚ))).getD i 0 = p.getD i 0 :=
    fun i hi => getD_set_ne _ _ _ (fun h => hi h.symm)
  have hal : (a.set less more).getD less 0 = more :=
    getD_set_self _ _ _ _ (alen ▸ hless_n)
  have hane : ∀ i, i ≠ less → (a.set less more).getD i 0 = a.getD i 0 :=
    fun i hi => getD_set_ne _ _ _ (fun h => hi h.symm)
  have hw_less_nn : 0 ≤ w.getD less 0 := w_nonneg less hless_in
  refine ⟨npos, by simp [wlen], by simp [plen], by simp [alen],
    List.nodup_cons.mpr ⟨hmr, hrest⟩, ?_, ?_, ?_, ?_, ?_⟩
  · intro i hi
    rcases List.mem_cons.mp hi with h | h
    · exact h ▸ hmore_n
    · exact mem_lt i ((hmemact i).mpr (Or.inr (Or.inr h)))
  · -- the working weights on the worklists still sum to (count) * average
    have horig : w.getD less 0 + (w.getD more 0 +
        ∑ i ∈ (small ++ large).toFinset, w.getD i 0) =
        (((less :: small) ++ (more :: large)).length : ℚ) / n := by
      rw [← sum_act, List.toFinset_eq_of_perm _ _ hperm]
      rw [List.toFinset_cons, List.toFinset_cons]
      rw [Finset.sum_insert (by
        simp only [List.mem_toFinset, Finset.mem_insert]
        rintro (h | h)
        · exact hlm h
        · exact hlr h)]
      rw [Finset.sum_insert (by simpa using hmr)]
    have hlen : (((less :: small) ++ (more :: large)).length : ℚ) =
        ((small ++ large).length : ℚ) + 2 := by
      push_cast [List.length_append, List.length_cons]
      ring
    rw [List.toFinset_cons, Finset.sum_insert (by simpa using hmr)]
    have hsum_rest : ∑ i ∈ (small ++ large).toFinset,
        (w.set more ((w.getD more 0 + w.getD less 0) - 1 / (n : ℚ))).getD i 0 =
        ∑ i ∈ (small ++ large).toFinset, w.getD i 0 := by
      refine Finset.sum_congr rfl fun i hi => ?_
      exact hwne i (fun h => hmr (h ▸ List.mem_toFinset.mp hi))
    rw [hsum_rest, hwm, List.length_cons]
    rw [hlen] at horig
    push_cast
    linear_combination horig
  · intro i hi
    rcases List.mem_cons.mp hi with h | h
    · subst h
      rw [hwm]
      linarith
    · rw [hwne i (fun hh => hmr (hh ▸ h))]
      exact w_nonneg i ((hmemact i).mpr (Or.inr (Or.inr h)))
  · intro i hi hni
    by_cases hil : i = less
    · subst hil
      rw [hpl]
      constructor
      · positivity
      · have h1 : w.getD i 0 * (n : ℚ) < (1 / (n : ℚ)) * n :=
          mul_lt_mul_of_pos_right hless nQpos
        rw [one_div, inv_mul_cancel₀ nQ] at h1
        exact le_of_lt h1
    · rw [hpne i hil]
      refine p_range i hi fun hh => ?_
      rcases (hmemact i).mp hh with h | h | h
      · exact hil h
      · exact hni (h ▸ List.mem_cons_self _ _)
      · exact hni (List.mem_cons_of_mem _ h)
  · -- preservation of the mass bookkeeping
    intro k hk
    have hmassAcc : massAcc (p.set less (w.getD less 0 * (n : ℚ)))
        (a.set less more) (more :: (small ++ large)) n k =
        massAcc p a ((less :: small) ++ (more :: large)) n k +
        ((if less = k then w.getD less 0 * (n : ℚ) else 0) +
          (if more = k then 1 - w.getD less 0 * (n : ℚ) else 0)) / n := by
      rw [massAcc, massAcc]
      rw [← Finset.sum_erase_add _ _ (Finset.mem_range.mpr hless_n),
        ← Finset.sum_erase_add _ _ (Finset.mem_range.mpr hless_n)]
      have hcong : ∀ i ∈ (Finset.range n).erase less,
          (if i ∈ more :: (small ++ large) then 0
            else ((if i = k then (p.set less (w.getD less 0 * (n : ℚ))).getD i 0 else 0) +
              (if (a.set less more).getD i 0 = k then
                1 - (p.set less (w.getD less 0 * (n : ℚ))).getD i 0 else 0)) / n) =
          (if i ∈ (less :: small) ++ (more :: large) then 0
            else ((if i = k then p.getD i 0 else 0) +
              (if a.getD i 0 = k then 1 - p.getD i 0 else 0)) / n) := by
        intro i hi
        have hil : i ≠ less := (Finset.mem_erase.mp hi).1
        have hmem_iff : i ∈ more :: (small ++ large) ↔
            i ∈ (less :: small) ++ (more :: large) := by
          rw [hmemact i, List.mem_cons]
          tauto
        by_cases him : i ∈ more :: (small ++ large)
        · rw [if_pos him, if_pos (hmem_iff.mp him)]
        · rw [if_neg him, if_neg (fun hh => him (hmem_iff.mpr hh)),
            hpne i hil, hane i hil]
      rw [Finset.sum_congr rfl hcong]
      have hFless : (if less ∈ more :: (small ++ large) then 0
          else ((if less = k then (p.set less (w.getD less 0 * (n : ℚ))).getD less 0 else 0) +
            (if (a.set less more).getD less 0 = k then
              1 - (p.set less (w.getD less 0 * (n : ℚ))).getD less 0 else 0)) / n) =
          ((if less = k then w.getD less 0 * (n : ℚ) else 0) +
            (if more = k then 1 - w.getD less 0 * (n : ℚ) else 0)) / n := by
        rw [if_neg (by
          rw [List.mem_cons]
          rintro (h | h)
          · exact hlm h
          · exact hlr h)]
        rw [hpl, hal]
      have hGless : (if less ∈ (less :: small) ++ (more :: large) then 0
          else ((if less = k then p.getD less 0 else 0) +
            (if a.getD less 0 = k then 1 - p.getD less 0 else 0)) / n) = 0 :=
        if_pos hless_in
      rw [hFless, hGless, add_zero]
    rw [hmassAcc]
    have hknotin : k = less → k ∉ more :: (small ++ large) := by
      intro hkl
      subst hkl
      rw [List.mem_cons]
      rintro (h | h)
      · exact hlm h
      · exact hlr h
    by_cases hkl : k = less
    · subst hkl
      rw [if_neg (hknotin rfl)]
      have hm := mass k hk
      rw [if_pos hless_in] at hm
      rw [if_pos rfl, if_neg (fun h => hlm h.symm)]
      have hsimp : (w.getD k 0 * (n : ℚ) + 0) / n = w.getD k 0 := by
        field_simp
      rw [hsimp]
      simpa using hm
    · by_cases hkm : k = more
      · subst hkm
        rw [if_pos (List.mem_cons_self _ _), hwm]
        have hm := mass k hk
        rw [if_pos hmore_in] at hm
        rw [if_neg (fun h => hkl h.symm), if_pos rfl, zero_add]
        have hexp : (1 - w.getD less 0 * (n : ℚ)) / n = 1 / n - w.getD less 0 := by
          field_simp
          ring
        rw [hexp]
        linarith [hm]
      · rw [if_neg (fun h => hkl h.symm), if_neg (fun h => hkm h.symm)]
        have hz : ((0 : ℚ) + 0) / (n : ℚ) = 0 := by simp
        rw [hz, add_zero]
        have hm := mass k hk
        by_cases hkr : k ∈ small ++ large
        · rw [if_pos (List.mem_cons_of_mem _ hkr), hwne k hkm]
          rw [if_pos ((hmemact k).mpr (Or.inr (Or.inr hkr)))] at hm
          exact hm
        · rw [if_neg (show k ∉ more :: (small ++ large) by
            rw [List.mem_cons]
            rintro (h | h)
            · exact hkm h
            · exact hkr h)]
          rw [if_neg (show k ∉ (less :: small) ++ (more :: large) by
            rw [hmemact k]
            rintro (h | h | h)
            · exact hkl h
            · exact hkm h
            · exact hkr h)] at hm
          rw [add_zero] at hm
          simpa using hm

/-- The pairing loop preserves the arithmetic invariant and the
classification of the worklists, given enough fuel. -/
theorem pairLoop_actInv (n : ℕ) (W : ℕ → ℚ) :
    ∀ (fuel : ℕ) (w p : List ℚ) (a : List ℕ) (small large : List ℕ),
      small.length + large.length ≤ fuel →
      ActInv n W w p a (small ++ large) →
      Classified n w small large →
      ActInv n W (pairLoop n fuel w p a small large).w
        (pairLoop n fuel w p a small large).probability
        (pairLoop n fuel w p a small large).aliasT
        ((pairLoop n fuel w p a small large).small ++
          (pairLoop n fuel w p a small large).large) ∧
      Classified n (pairLoop n fuel w p a small large).w
        (pairLoop n fuel w p a small large).small
        (pairLoop n fuel w p a small large).large := by
  intro fuel
  induction fuel with
  | zero => intro w p a small large hf hA hC; exact ⟨hA, hC⟩
  | succ fuel ih =>
    intro w p a small large hf hA hC
    match small, large with
    | [], large => rw [pairLoop_small_nil]; exact ⟨hA, hC⟩
    | less :: small, [] => rw [pairLoop_large_nil]; exact ⟨hA, hC⟩
    | less :: small, more :: large =>
      have hless := hC.1 less (List.mem_cons_self _ _)
      have hmore := hC.2 more (List.mem_cons_self _ _)
      have hstep := actInv_step n W w p a less more small large hA hless hmore
      have hperm : ((less :: small) ++ (more :: large)).Perm
          (less :: more :: (small ++ large)) := List.Perm.cons less List.perm_middle
      have hnodup2 : (less :: more :: (small ++ large)).Nodup :=
        hperm.nodup hA.nodup
      have hmr : more ∉ small ++ large :=
        (List.nodup_cons.mp (List.nodup_cons.mp hnodup2).2).1
      have hmore_n : more < n := hA.mem_lt more (by simp)
      have hwm' : (w.set more ((w.getD more 0 + w.getD less 0) - 1 / (n : ℚ))).getD more 0
          = (w.getD more 0 + w.getD less 0) - 1 / (n : ℚ) :=
        getD_set_self _ _ _ _ (hA.wlen ▸ hmore_n)
      have hwne : ∀ i, i ≠ more →
          (w.set more ((w.getD more 0 + w.getD less 0) - 1 / (n : ℚ))).getD i 0
            = w.getD i 0 := fun i hi => getD_set_ne _ _ _ (fun h => hi h.symm)
      rw [pairLoop_cons_gen]
      simp only [List.length_cons] at hf
      split
      · rename_i hble
        rw [ble_rat, decide_eq_true_eq] at hble
        refine ih _ _ _ _ _ (by simp only [List.length_cons]; omega) ?_ ?_
        · exact hstep.perm List.perm_middle.symm
        · constructor
          · intro i hi
            rw [hwne i (fun h => hmr (h ▸ List.mem_append_left large hi))]
            exact hC.1 i (List.mem_cons_of_mem _ hi)
          · intro i hi
            rcases List.mem_cons.mp hi with h | h
            · subst h
              rw [hwm']
              exact hble
            · rw [hwne i (fun hh => hmr (hh ▸ List.mem_append_right small h))]
              exact hC.2 i (List.mem_cons_of_mem _ h)
      · rename_i hble
        rw [ble_rat, decide_eq_true_eq] at hble
        have hblt := not_le.mp hble
        refine ih _ _ _ _ _ (by simp only [List.length_cons]; omega) ?_ ?_
        · exact hstep
        · constructor
          · intro i hi
            rcases List.mem_cons.mp hi with h | h
            · subst h
              rw [hwm']
              exact hblt
            · rw [hwne i (fun hh => hmr (hh ▸ List.mem_append_left large h))]
              exact hC.1 i (List.mem_cons_of_mem _ h)
          · intro i hi
            rw [hwne i (fun hh => hmr (hh ▸ List.mem_append_right small hi))]
            exact hC.2 i (List.mem_cons_of_mem _ hi)

/-- Length bookkeeping: the initial worklists partition the `n` indices. -/
theorem initial_length {α : Type} [Div α] [Zero α] [One α] [NatCast α] [BLe α]
    (w : List α) (n : ℕ) :
    (initialSmall w n).length + (initialLarge w n).length = n := by
  rw [initialSmall, initialLarge, List.length_reverse, List.length_reverse]
  have hp := List.filter_append_perm
    (fun i => BLe.ble ((1 : α) / (n : α)) (w.getD i 0)) (List.range n)
  have := hp.length_eq
  rw [List.length_append, List.length_range] at this
  omega

/-- At loop exit (one worklist empty), every index remaining on a worklist
has working weight exactly the average `1/n`: the weights on the worklists
sum to `count/n`, and they are all on the same side of `1/n`. -/
theorem exit_weights_avg (n : ℕ) (w : List ℚ) (small large : List ℕ)
    (hnodup : (small ++ large).Nodup)
    (hsum : ∑ i ∈ (small ++ large).toFinset, w.getD i 0 =
      ((small ++ large).length : ℚ) / n)
    (hC : Classified n w small large)
    (hexit : small = [] ∨ large = []) :
    ∀ i ∈ small ++ large, w.getD i 0 = 1 / (n : ℚ) := by
  have hcard : ((small ++ large).toFinset.card : ℚ) = (small ++ large).length := by
    rw [List.toFinset_card_of_nodup hnodup]
  rcases hexit with h | h
  · subst h
    simp only [List.nil_append] at hsum hnodup ⊢
    intro i hi
    by_contra hne
    have hgt : 1 / (n : ℚ) < w.getD i 0 :=
      lt_of_le_of_ne (hC.2 i hi) (Ne.symm hne)
    have hlt : ∑ j ∈ large.toFinset, (1 : ℚ) / n <
        ∑ j ∈ large.toFinset, w.getD j 0 := by
      refine Finset.sum_lt_sum (fun j hj => hC.2 j (List.mem_toFinset.mp hj)) ?_
      exact ⟨i, List.mem_toFinset.mpr hi, hgt⟩
    rw [Finset.sum_const, nsmul_eq_mul, hsum] at hlt
    rw [List.toFinset_card_of_nodup hnodup] at hlt
    rw [mul_one_div] at hlt
    exact lt_irrefl _ hlt
  · subst h
    simp only [List.append_nil] at hsum hnodup ⊢
    intro i hi
    exfalso
    have hne : small.toFinset.Nonempty := ⟨i, List.mem_toFinset.mpr hi⟩
    have hlt : ∑ j ∈ small.toFinset, w.getD j 0 <
        ∑ j ∈ small.toFinset, (1 : ℚ) / n :=
      Finset.sum_lt_sum_of_nonempty hne
        (fun j hj => hC.1 j (List.mem_toFinset.mp hj))
    rw [Finset.sum_const, nsmul_eq_mul, hsum] at hlt
    rw [List.toFinset_card_of_nodup hnodup] at hlt
    rw [mul_one_div] at hlt
    exact lt_irrefl _ hlt

/-- The defining mass formula as a single indexed sum (for `k < n`). -/
theorem massTo_eq_sum (p : List ℚ) (a : List ℕ) (n k : ℕ) (hk : k < n) :
    massTo p a n k = ∑ i ∈ Finset.range n,
      ((if i = k then p.getD i 0 else 0) +
        (if a.getD i 0 = k then 1 - p.getD i 0 else 0)) / n := by
  have h1 : ∀ i, ((if i = k then p.getD i 0 else 0) +
      (if a.getD i 0 = k then 1 - p.getD i 0 else 0)) / (n : ℚ) =
      (if i = k then p.getD i 0 / n else 0) +
      (if a.getD i 0 = k then (1 - p.getD i 0) / n else 0) := by
    intro i
    split_ifs <;> ring
  rw [massTo, Finset.sum_congr rfl (fun i _ => h1 i), Finset.sum_add_distrib]
  congr 1
  rw [Finset.sum_ite_eq' (Finset.range n) k (fun i => p.getD i 0 / (n : ℚ))]
  rw [if_pos (Finset.mem_range.mpr hk)]

/-- Draining the remaining worklists (probability `1.0` for each) completes
the mass accounting: the final tables route exactly `W k` to every outcome. -/
theorem massTo_final (n : ℕ) (W : ℕ → ℚ) (w p : List ℚ) (a : List ℕ)
    (small large : List ℕ)
    (hA : ActInv n W w p a (small ++ large))
    (havg : ∀ i ∈ small ++ large, w.getD i 0 = 1 / (n : ℚ)) :
    ∀ k, k < n →
      massTo (drainFill (drainFill p small) large) a n k = W k := by
  intro k hk
  have hpflen : (drainFill (drainFill p small) large).length = p.length := by
    rw [length_drainFill, length_drainFill]
  have hpf : ∀ i, (drainFill (drainFill p small) large).getD i 0 =
      if i ∈ small ++ large ∧ i < p.length then 1 else p.getD i 0 := by
    intro i
    rw [drainFill_getD, length_drainFill, drainFill_getD]
    by_cases hl : i ∈ large <;> by_cases hs : i ∈ small <;>
      by_cases hlen : i < p.length <;>
      simp [hl, hs, hlen, List.mem_append]
  rw [massTo_eq_sum _ _ _ _ hk]
  have hsplit : ∀ i ∈ Finset.range n,
      ((if i = k then (drainFill (drainFill p small) large).getD i 0 else 0) +
        (if a.getD i 0 = k then
          1 - (drainFill (drainFill p small) large).getD i 0 else 0)) / (n : ℚ) =
      (if i ∈ small ++ large then 0
        else ((if i = k then p.getD i 0 else 0) +
          (if a.getD i 0 = k then 1 - p.getD i 0 else 0)) / n) +
      (if i ∈ small ++ large then (if i = k then 1 / (n : ℚ) else 0) else 0) := by
    intro i _
    by_cases hi : i ∈ small ++ large
    · have hilt : i < p.length := hA.plen ▸ hA.mem_lt i hi
      rw [hpf i,
        if_pos (show i ∈ small ++ large ∧ i < p.length from ⟨hi, hilt⟩),
        if_pos hi, zero_add]
      split_ifs <;> simp
    · rw [hpf i,
        if_neg (show ¬(i ∈ small ++ large ∧ i < p.length) from
          fun hc => hi hc.1),
        if_neg hi, if_neg hi, add_zero]
  rw [Finset.sum_congr rfl hsplit, Finset.sum_add_distrib]
  have hsum2 : ∑ i ∈ Finset.range n,
      (if i ∈ small ++ large then (if i = k then 1 / (n : ℚ) else 0) else 0) =
      if k ∈ small ++ large then 1 / (n : ℚ) else 0 := by
    rw [Finset.sum_eq_single_of_mem k (Finset.mem_range.mpr hk)]
    · by_cases hkmem : k ∈ small ++ large <;> simp [hkmem]
    · intro b _ hbk
      by_cases hbmem : b ∈ small ++ large <;> simp [hbmem, hbk]
  rw [hsum2]
  have hmass := hA.mass k hk
  rw [massAcc] at hmass
  by_cases hkmem : k ∈ small ++ large
  · rw [if_pos hkmem]
    rw [if_pos hkmem, havg k hkmem] at hmass
    exact hmass
  · rw [if_neg hkmem, add_zero]
    rw [if_neg hkmem, add_zero] at hmass
    exact hmass

/-- Unfolding of the construction on a non-empty input. -/
theorem initWithSeed_eq {α : Type} [Add α] [Sub α] [Mul α] [Div α] [Zero α]
    [One α] [NatCast α] [BLe α] (probs : List α) (hne : probs ≠ []) :
    initWithSeed probs = some
      (drainFill (drainFill (buildState probs).probability
        (buildState probs).small) (buildState probs).large,
        (buildState probs).aliasT) := by
  rw [initWithSeed, if_neg (by simpa [List.isEmpty_iff] using hne)]

/-- Master theorem for the exact-arithmetic construction: for non-negative
weights with non-zero total, the tables returned by `initWithSeed` route
mass `probs[k] / Σ probs` to every outcome `k`. -/
theorem initWithSeed_mass (probs : List ℚ) (hnn : ∀ x ∈ probs, 0 ≤ x)
    (hsum : probs.sum ≠ 0) (P : List ℚ) (A : List ℕ)
    (hinit : initWithSeed probs = some (P, A)) :
    ∀ k, k < probs.length → massTo P A probs.length k = probs.getD k 0 / probs.sum := by
  have hne : probs ≠ [] := by
    rintro rfl
    exact hsum rfl
  set n := probs.length with hn
  set w := normWeights probs with hw
  obtain ⟨hA0, hC0⟩ := actInv_initial probs hne hnn hsum
  have hflen : (initialSmall w n).length + (initialLarge w n).length ≤ n :=
    le_of_eq (initial_length w n)
  have hbs : buildState probs = pairLoop n n w (List.replicate n 0)
      (List.replicate n 0) (initialSmall w n) (initialLarge w n) := rfl
  obtain ⟨hA1, hC1⟩ := pairLoop_actInv n (fun k => probs.getD k 0 / probs.sum)
    n w (List.replicate n 0) (List.replicate n 0)
    (initialSmall w n) (initialLarge w n) hflen hA0 hC0
  have hexit := pairLoop_exit n n w (List.replicate n 0) (List.replicate n 0)
    (initialSmall w n) (initialLarge w n) hflen
  have havg := exit_weights_avg n
    (pairLoop n n w (List.replicate n 0) (List.replicate n 0)
      (initialSmall w n) (initialLarge w n)).w
    (pairLoop n n w (List.replicate n 0) (List.replicate n 0)
      (initialSmall w n) (initialLarge w n)).small
    (pairLoop n n w (List.replicate n 0) (List.replicate n 0)
      (initialSmall w n) (initialLarge w n)).large
    hA1.nodup hA1.sum_act hC1 hexit
  rw [initWithSeed_eq probs hne, hbs] at hinit
  simp only [Option.some.injEq, Prod.mk.injEq] at hinit
  obtain ⟨hP, hA⟩ := hinit
  subst hP
  subst hA
  exact massTo_final n (fun k => probs.getD k 0 / probs.sum) _ _ _ _ _ hA1 havg

/-- Master theorem for the table shapes and ranges: for non-negative weights
with non-zero total, both tables have length `n`, every probability entry is
in `[0, 1]`, and every alias entry is below `n`. -/
theorem initWithSeed_tables (probs : List ℚ) (hnn : ∀ x ∈ probs, 0 ≤ x)
    (hsum : probs.sum ≠ 0) (P : List ℚ) (A : List ℕ)
    (hinit : initWithSeed probs = some (P, A)) :
    P.length = probs.length ∧ A.length = probs.length ∧
    (∀ i, i < probs.length → 0 ≤ P.getD i 0 ∧ P.getD i 0 ≤ 1) ∧
    (∀ i, A.getD i 0 < probs.length) := by
  have hne : probs ≠ [] := by
    rintro rfl
    exact hsum rfl
  have npos : 0 < probs.length := List.length_pos.mpr hne
  set n := probs.length with hn
  set w := normWeights probs with hw
  obtain ⟨hA0, hC0⟩ := actInv_initial probs hne hnn hsum
  have hflen : (initialSmall w n).length + (initialLarge w n).length ≤ n :=
    le_of_eq (initial_length w n)
  have hbs : buildState probs = pairLoop n n w (List.replicate n 0)
      (List.replicate n 0) (initialSmall w n) (initialLarge w n) := rfl
  obtain ⟨hA1, hC1⟩ := pairLoop_actInv n (fun k => probs.getD k 0 / probs.sum)
    n w (List.replicate n 0) (List.replicate n 0)
    (initialSmall w n) (initialLarge w n) hflen hA0 hC0
  have hstruct := pairLoop_structInv n n w (List.replicate n 0)
    (List.replicate n 0) (initialSmall w n) (initialLarge w n)
    (structInv_initial w n npos)
  rw [initWithSeed_eq probs hne, hbs] at hinit
  simp only [Option.some.injEq, Prod.mk.injEq] at hinit
  obtain ⟨hP, hA⟩ := hinit
  subst hP
  subst hA
  refine ⟨by rw [length_drainFill, length_drainFill, hA1.plen],
    hA1.alen, ?_, hstruct.alias_lt⟩
  intro i hi
  have hplen : (pairLoop n n w (List.replicate n 0) (List.replicate n 0)
      (initialSmall w n) (initialLarge w n)).probability.length = n := hA1.plen
  rw [drainFill_getD, length_drainFill, drainFill_getD]
  by_cases hiL : i ∈ (pairLoop n n w (List.replicate n 0) (List.replicate n 0)
      (initialSmall w n) (initialLarge w n)).large
  · rw [if_pos ⟨hiL, show i < _ by rw [hplen]; exact hi⟩]
    exact ⟨zero_le_one, le_refl 1⟩
  · rw [if_neg (fun hc => hiL hc.1)]
    by_cases hiS : i ∈ (pairLoop n n w (List.replicate n 0) (List.replicate n 0)
        (initialSmall w n) (initialLarge w n)).small
    · rw [if_pos ⟨hiS, show i < _ by rw [hplen]; exact hi⟩]
      exact ⟨zero_le_one, le_refl 1⟩
    · rw [if_neg (fun hc => hiS hc.1)]
      refine hA1.p_range i hi ?_
      rw [List.mem_append]
      rintro (h | h)
      · exact hiS h
      · exact hiL h

/-- Construction fails exactly on the empty input (any carrier). -/
theorem initWithSeed_none_iff {α : Type} [Add α] [Sub α] [Mul α] [Div α]
    [Zero α] [One α] [NatCast α] [BLe α] (probs : List α) :
    initWithSeed probs = none ↔ probs = [] := by
  constructor
  · intro h
    by_contra hne
    rw [initWithSeed_eq probs hne] at h
    exact Option.noConfusion h
  · rintro rfl
    rfl

/-- Structural range facts about the tables, for arbitrary weights: the
probability table keeps length `n` and every alias entry is below `n`. -/
theorem initWithSeed_range (probs : List ℚ) (P : List ℚ) (A : List ℕ)
    (hinit : initWithSeed probs = some (P, A)) :
    probs ≠ [] ∧ P.length = probs.length ∧ A.length = probs.length ∧
    (∀ i, A.getD i 0 < probs.length) := by
  have hne : probs ≠ [] := by
    rintro rfl
    exact Option.noConfusion hinit
  have npos : 0 < probs.length := List.length_pos.mpr hne
  set n := probs.length with hn
  set w := normWeights probs with hw
  have hstruct := pairLoop_structInv n n w (List.replicate n 0)
    (List.replicate n 0) (initialSmall w n) (initialLarge w n)
    (structInv_initial w n npos)
  have hlen := pairLoop_lengths n n w (List.replicate n 0)
    (List.replicate n 0) (initialSmall w n) (initialLarge w n)
  have hbs : buildState probs = pairLoop n n w (List.replicate n 0)
      (List.replicate n 0) (initialSmall w n) (initialLarge w n) := rfl
  rw [initWithSeed_eq probs hne, hbs] at hinit
  simp only [Option.some.injEq, Prod.mk.injEq] at hinit
  obtain ⟨hP, hA⟩ := hinit
  subst hP
  subst hA
  refine ⟨hne, ?_, ?_, hstruct.alias_lt⟩
  · rw [length_drainFill, length_drainFill, hlen.2.1, List.length_replicate]
  · rw [hlen.2.2, List.length_replicate]

/-- Drain facts, for arbitrary weights: every index still on a worklist when
the pairing loop exits gets probability exactly `1` from the drain loops,
and its alias entry is still the zero-initialized `0`. -/
theorem drain_leftover (probs : List ℚ) (P : List ℚ) (A : List ℕ)
    (hinit : initWithSeed probs = some (P, A)) :
    ∀ k ∈ (buildState probs).small ++ (buildState probs).large,
      P.getD k 0 = 1 ∧ A.getD k 0 = 0 := by
  have hne : probs ≠ [] := by
    rintro rfl
    exact Option.noConfusion hinit
  have npos : 0 < probs.length := List.length_pos.mpr hne
  set n := probs.length with hn
  set w := normWeights probs with hw
  have hstruct := pairLoop_structInv n n w (List.replicate n 0)
    (List.replicate n 0) (initialSmall w n) (initialLarge w n)
    (structInv_initial w n npos)
  have hlen := pairLoop_lengths n n w (List.replicate n 0)
    (List.replicate n 0) (initialSmall w n) (initialLarge w n)
  have hbs : buildState probs = pairLoop n n w (List.replicate n 0)
      (List.replicate n 0) (initialSmall w n) (initialLarge w n) := rfl
  rw [initWithSeed_eq probs hne, hbs] at hinit
  simp only [Option.some.injEq, Prod.mk.injEq] at hinit
  obtain ⟨hP, hA⟩ := hinit
  subst hP
  subst hA
  rw [hbs]
  intro k hk
  have hk_lt : k < n := hstruct.mem_lt k hk
  have hplen : (pairLoop n n w (List.replicate n 0) (List.replicate n 0)
      (initialSmall w n) (initialLarge w n)).probability.length = n := by
    rw [hlen.2.1, List.length_replicate]
  refine ⟨?_, hstruct.alias_act k hk⟩
  rw [drainFill_getD, length_drainFill, drainFill_getD]
  rcases List.mem_append.mp hk with h | h
  · by_cases hkl : k ∈ (pairLoop n n w (List.replicate n 0)
        (List.replicate n 0) (initialSmall w n) (initialLarge w n)).large
    · rw [if_pos ⟨hkl, show k < _ by rw [hplen]; exact hk_lt⟩]
    · rw [if_neg (fun hc => hkl hc.1),
        if_pos ⟨h, show k < _ by rw [hplen]; exact hk_lt⟩]
  · rw [if_pos ⟨h, show k < _ by rw [hplen]; exact hk_lt⟩]

/-! ### Behaviour on the all-zero weight vector under IEEE semantics -/

theorem fp_foldl_add_zeros (m : ℕ) (x : ℚ) :
    List.foldl (· + ·) (FP.num x) (List.replicate m (FP.num 0)) = FP.num x := by
  induction m generalizing x with
  | zero => rfl
  | succ m ih =>
    rw [List.replicate_succ, List.foldl_cons]
    have hadd : FP.num x + FP.num 0 = FP.num x := by
      show FP.add (FP.num x) (FP.num 0) = FP.num x
      rw [FP.add, add_zero]
    rw [hadd]
    exact ih x

theorem listTotal_zeros (n : ℕ) :
    listTotal (List.replicate n (FP.num 0)) = FP.num 0 :=
  fp_foldl_add_zeros n 0

/-- Normalizing the all-zero vector divides `0.0` by `0.0`: every working
weight becomes `NaN`. -/
theorem normWeights_zeros (n : ℕ) :
    normWeights (List.replicate n (FP.num 0)) = List.replicate n FP.nan := by
  rw [normWeights, listTotal_zeros, List.map_replicate]
  have : FP.num 0 / FP.num 0 = FP.nan := rfl
  rw [this]

theorem FP.ble_nan_right (x : FP) : FP.ble x FP.nan = false := by
  cases x with
  | num a => rfl
  | inf s => cases s <;> rfl
  | nan => rfl

/-- `NaN` fails the `>= average` test, so on the all-zero vector every index
is routed to the `small` worklist and `large` starts empty. -/
theorem initialLarge_zeros (n : ℕ) :
    initialLarge (List.replicate n FP.nan) n = [] := by
  rw [initialLarge]
  have h : (List.range n).filter
      (fun i => BLe.ble ((1 : FP) / (n : FP))
        ((List.replicate n FP.nan).getD i 0)) = [] := by
    rw [List.filter_eq_nil_iff]
    intro i hi
    rw [getD_replicate, if_pos (List.mem_range.mp hi)]
    show ¬FP.ble _ FP.nan = true
    rw [FP.ble_nan_right]
    exact Bool.false_ne_true
  rw [h, List.reverse_nil]

theorem initialSmall_zeros (n : ℕ) :
    initialSmall (List.replicate n FP.nan) n = (List.range n).reverse := by
  rw [initialSmall]
  congr 1
  rw [List.filter_eq_self]
  intro i hi
  rw [getD_replicate, if_pos (List.mem_range.mp hi)]
  show (!FP.ble ((1 : FP) / (n : FP)) FP.nan) = true
  rw [FP.ble_nan_right]
  rfl

theorem drainFill_zeros (n : ℕ) :
    drainFill (List.replicate n (FP.num 0)) (List.range n).reverse =
      List.replicate n (FP.num 1) := by
  apply List.ext_getElem
  · rw [length_drainFill, List.length_replicate, List.length_replicate]
  · intro i h1 h2
    have hin : i < n := by
      rw [length_drainFill, List.length_replicate] at h1
      exact h1
    have hd := drainFill_getD (List.replicate n (FP.num 0))
      (List.range n).reverse i (FP.num 0)
    rw [if_pos ⟨by rw [List.mem_reverse]; exact List.mem_range.mpr hin,
      by rw [List.length_replicate]; exact hin⟩] at hd
    have h1' : (drainFill (List.replicate n (FP.num 0))
        (List.range n).reverse).getD i (FP.num 0) =
        (drainFill (List.replicate n (FP.num 0)) (List.range n).reverse)[i] :=
      List.getD_eq_getElem _ _ h1
    rw [h1'] at hd
    rw [hd]
    rw [List.getElem_replicate]
    rfl

/-- Construction on the all-zero weight vector under IEEE semantics: the
`NaN` working weights all land in `small`, the pairing loop never runs, and
the drain loop sets every probability entry to `1.0`.  The returned tables
contain no `NaN`: probability is all `1.0` and alias all `0`. -/
theorem initWithSeed_zeros (n : ℕ) (hn : 0 < n) :
    initWithSeed (List.replicate n (FP.num 0)) =
      some (List.replicate n (FP.num 1), List.replicate n 0) := by
  have hne : List.replicate n (FP.num 0) ≠ [] := by
    intro h
    rw [← List.length_eq_zero, List.length_replicate] at h
    omega
  rw [initWithSeed_eq _ hne]
  have hlen : (List.replicate n (FP.num 0)).length = n := List.length_replicate n _
  have hbs : buildState (List.replicate n (FP.num 0)) =
      BuildState.mk (List.replicate n FP.nan) (List.replicate n (FP.num 0))
        (List.replicate n 0) (List.range n).reverse [] := by
    rw [buildState]
    rw [hlen, normWeights_zeros, initialLarge_zeros, initialSmall_zeros]
    exact pairLoop_large_nil n n _ _ _ _
  rw [hbs]
  show some (drainFill (drainFill (List.replicate n (FP.num 0))
    (List.range n).reverse) [], List.replicate n 0) = _
  rw [show drainFill (drainFill (List.replicate n (FP.num 0))
      (List.range n).reverse) [] =
      drainFill (List.replicate n (FP.num 0)) (List.range n).reverse from rfl]
  rw [drainFill_zeros]

theorem sum_pos_of_nonneg_ne_zero (l : List ℚ) (hnn : ∀ x ∈ l, 0 ≤ x)
    (hnz : ∃ x ∈ l, x ≠ 0) : 0 < l.sum := by
  obtain ⟨x, hx, hxne⟩ := hnz
  have hxpos : 0 < x := lt_of_le_of_ne (hnn x hx) (Ne.symm hxne)
  exact lt_of_lt_of_le hxpos (List.single_le_sum hnn x hx)

/-! ### The claims -/

/-- C1: for every weight vector of `n ≥ 1` non-negative rationals, not all
zero, the constructed pair `(probability, alias)` routes total mass
`probability[k]/n + Σ_{alias[i] = k} (1 - probability[i])/n` to each
outcome `k`, equal to the normalized input weight `weights[k] / Σ weights`.
In the exact-arithmetic carrier the "within floating-point tolerance" of the
claim is an exact equality. -/
theorem claim_C1_mass_invariant (probs : List ℚ) (P : List ℚ) (A : List ℕ)
    (hnn : ∀ x ∈ probs, 0 ≤ x) (hnz : ∃ x ∈ probs, x ≠ 0)
    (hinit : initWithSeed probs = some (P, A)) :
    ∀ k, k < probs.length →
      massTo P A probs.length k = probs.getD k 0 / probs.sum :=
  initWithSeed_mass probs hnn
    (ne_of_gt (sum_pos_of_nonneg_ne_zero probs hnn hnz)) P A hinit

theorem claim_C1_witness :
    initWithSeed ([1, 3] : List ℚ) = some ([1/2, 1], [1, 0]) ∧
    massTo [1/2, 1] [1, 0] 2 1 = ([1, 3] : List ℚ).getD 1 0 / ([1, 3] : List ℚ).sum := by
  constructor
  · with_unfolding_all rfl
  · exact claim_C1_mass_invariant [1, 3] [1/2, 1] [1, 0]
      (by intro x hx; fin_cases hx <;> norm_num)
      ⟨3, by simp, by norm_num⟩
      (by with_unfolding_all rfl) 1 (by norm_num)

/-- C2: one call to `Next` performs exactly two generator draws in fixed
order, the uniform column at position `pos` and the uniform real at
position `pos + 1`; it returns `column` when `u < probability[column]` and
`alias[column]` otherwise, and the only state change is the generator
advancing by those two draws. -/
theorem claim_C2_next_two_draws (s : AliasSampler) :
    Next s =
      (if s.src.float64 (s.pos + 1) <
          s.probability.getD (s.src.intn s.pos s.probability.length) 0
        then s.src.intn s.pos s.probability.length
        else s.aliasT.getD (s.src.intn s.pos s.probability.length) 0,
      { s with pos := s.pos + 2 }) := rfl

/-- C3: for every sampler built from a non-empty weight sequence — with no
assumption on the weight values — and a generator meeting the `math/rand`
contract, the drawn column is in `[0, n)`, every alias entry is in `[0, n)`,
and hence every call to `Next` returns an index in `[0, n)`. -/
theorem claim_C3_range (probs : List ℚ) (P : List ℚ) (A : List ℕ)
    (src : RandSrc) (hsrc : src.Valid)
    (hinit : initWithSeed probs = some (P, A)) :
    ∀ pos, (Next ⟨src, pos, P, A⟩).1 < probs.length ∧
      src.intn pos P.length < probs.length ∧
      (∀ i, A.getD i 0 < probs.length) := by
  obtain ⟨hne, hPlen, hAlen, hAlt⟩ := initWithSeed_range probs P A hinit
  have npos : 0 < probs.length := List.length_pos.mpr hne
  intro pos
  have hcol : src.intn pos P.length < probs.length := by
    rw [← hPlen]
    exact hsrc.1 pos P.length (hPlen ▸ npos)
  refine ⟨?_, hcol, hAlt⟩
  show (if src.float64 (pos + 1) < P.getD (src.intn pos P.length) 0
    then src.intn pos P.length
    else A.getD (src.intn pos P.length) 0) < probs.length
  split
  · exact hcol
  · exact hAlt _

theorem claim_C3_witness :
    initWithSeed ([1, -1] : List ℚ) = some ([1, 1], [0, 0]) ∧
    (Next ⟨⟨fun _ _ => 0, fun _ => 0⟩, 5, [1, 1], [0, 0]⟩).1 < 2 := by
  constructor
  · with_unfolding_all rfl
  · exact (claim_C3_range [1, -1] [1, 1] [0, 0] ⟨fun _ _ => 0, fun _ => 0⟩
      ⟨fun t b hb => hb, fun t => ⟨le_refl 0, by norm_num⟩⟩
      (by with_unfolding_all rfl) 5).1

/-- C4: construction returns the error exactly when the weight sequence is
empty, at both carriers (the `FP` carrier covers NaN, infinite, negative and
all-zero weights); on the error no sampler is produced, and on every
non-empty input a sampler is produced. -/
theorem claim_C4_error_iff_empty :
    (∀ probs : List ℚ, initWithSeed probs = none ↔ probs = []) ∧
    (∀ probs : List FP, initWithSeed probs = none ↔ probs = []) ∧
    (∀ (probs : List ℚ) (src : RandSrc),
      InitWithSeed probs src = none ↔ probs = []) := by
  refine ⟨fun probs => initWithSeed_none_iff probs,
    fun probs => initWithSeed_none_iff probs, fun probs src => ?_⟩
  rw [InitWithSeed, Option.map_eq_none', initWithSeed_none_iff]

/-- C5: the initial partition sends an index to `large` exactly when its
normalized weight is `>=` the average `1/n` (so a weight exactly equal to
the average goes to `large`) and to `small` exactly when it is `<`; the
re-classification in the pairing loop uses the same exact comparison on the
updated weight. -/
theorem claim_C5_classification (w : List ℚ) (n : ℕ) :
    (∀ i, i ∈ initialLarge w n ↔ i < n ∧ 1 / (n : ℚ) ≤ w.getD i 0) ∧
    (∀ i, i ∈ initialSmall w n ↔ i < n ∧ w.getD i 0 < 1 / (n : ℚ)) ∧
    (∀ i, i < n → w.getD i 0 = 1 / (n : ℚ) → i ∈ initialLarge w n) ∧
    (∀ (fuel : ℕ) (w' p : List ℚ) (a : List ℕ) (less more : ℕ)
        (small large : List ℕ),
      pairLoop n (fuel + 1) w' p a (less :: small) (more :: large) =
        if 1 / (n : ℚ) ≤ (w'.getD more 0 + w'.getD less 0) - 1 / (n : ℚ) then
          pairLoop n fuel
            (w'.set more ((w'.getD more 0 + w'.getD less 0) - 1 / (n : ℚ)))
            (p.set less (w'.getD less 0 * (n : ℚ))) (a.set less more)
            small (more :: large)
        else
          pairLoop n fuel
            (w'.set more ((w'.getD more 0 + w'.getD less 0) - 1 / (n : ℚ)))
            (p.set less (w'.getD less 0 * (n : ℚ))) (a.set less more)
            (more :: small) large) := by
  refine ⟨?_, ?_, ?_, ?_⟩
  · intro i
    rw [mem_initialLarge, ble_rat, decide_eq_true_eq]
  · intro i
    rw [mem_initialSmall, ble_rat]
    constructor
    · rintro ⟨h1, h2⟩
      exact ⟨h1, not_le.mp (by simpa using h2)⟩
    · rintro ⟨h1, h2⟩
      exact ⟨h1, by simpa using not_le.mpr h2⟩
  · intro i hi heq
    rw [mem_initialLarge, ble_rat, decide_eq_true_eq]
    exact ⟨hi, le_of_eq heq.symm⟩
  · intro fuel w' p a less more small large
    exact pairLoop_cons n fuel w' p a less more small large

theorem claim_C5_witness :
    (0 ∈ initialLarge ([1/2, 1/2] : List ℚ) 2) ∧
    (1 ∉ initialSmall ([1/2, 1/2] : List ℚ) 2) := by
  constructor
  · exact (claim_C5_classification [1/2, 1/2] 2).2.2.1 0 (by norm_num)
      (by with_unfolding_all rfl)
  · intro h
    have := ((claim_C5_classification [1/2, 1/2] 2).2.1 1).mp h
    norm_num at this

/-- C6: every index still held on either worklist when the pairing loop
ends gets its probability entry set to exactly `1.0` by the drain loops,
while its alias entry keeps the zero-initialized value `0`. -/
theorem claim_C6_drain_leftover (probs : List ℚ) (P : List ℚ) (A : List ℕ)
    (hinit : initWithSeed probs = some (P, A)) :
    ∀ k ∈ (buildState probs).small ++ (buildState probs).large,
      P.getD k 0 = 1 ∧ A.getD k 0 = 0 :=
  drain_leftover probs P A hinit

theorem claim_C6_witness :
    initWithSeed ([1, 1] : List ℚ) = some ([1, 1], [0, 0]) ∧
    (1 ∈ (buildState ([1, 1] : List ℚ)).small ++
      (buildState ([1, 1] : List ℚ)).large) ∧
    ([1, 1] : List ℚ).getD 1 0 = 1 ∧ ([0, 0] : List ℕ).getD 1 0 = 0 := by
  refine ⟨by with_unfolding_all rfl, by with_unfolding_all decide, ?_⟩
  exact claim_C6_drain_leftover [1, 1] [1, 1] [0, 0]
    (by with_unfolding_all rfl) 1 (by with_unfolding_all decide)

/-- C7: for the single-element weight vector `[1.0]`, construction succeeds
with `probability[0] = 1.0`, and every call to `Next` returns index `0`. -/
theorem claim_C7_single_outcome (src : RandSrc) (hsrc : src.Valid) :
    initWithSeed ([1] : List ℚ) = some ([1], [0]) ∧
    ∀ pos, (Next ⟨src, pos, [1], [0]⟩).1 = 0 := by
  constructor
  · with_unfolding_all rfl
  · intro pos
    have hcol : src.intn pos 1 = 0 :=
      Nat.lt_one_iff.mp (hsrc.1 pos 1 one_pos)
    show (if src.float64 (pos + 1) <
        ([1] : List ℚ).getD (src.intn pos ([1] : List ℚ).length) 0
      then src.intn pos ([1] : List ℚ).length
      else ([0] : List ℕ).getD (src.intn pos ([1] : List ℚ).length) 0) = 0
    rw [show ([1] : List ℚ).length = 1 from rfl, hcol]
    rw [if_pos (by simpa using (hsrc.2 (pos + 1)).2)]

theorem claim_C7_witness :
    initWithSeed ([1] : List ℚ) = some ([1], [0]) ∧
    (Next ⟨⟨fun _ _ => 0, fun _ => 0⟩, 4, [1], [0]⟩).1 = 0 := by
  have h := claim_C7_single_outcome ⟨fun _ _ => 0, fun _ => 0⟩
    ⟨fun t b hb => hb, fun t => ⟨le_refl 0, by norm_num⟩⟩
  exact ⟨h.1, h.2 4⟩

/-- C8: for non-negative weights, not all zero, both tables have length
exactly `n`, every probability entry is in `[0.0, 1.0]`, and every alias
entry is in `[0, n-1]` (alias entries are naturals, so the lower bound is
automatic; all rationals are finite, matching the claim's finiteness
hypothesis). -/
theorem claim_C8_table_ranges (probs : List ℚ) (P : List ℚ) (A : List ℕ)
    (hnn : ∀ x ∈ probs, 0 ≤ x) (hnz : ∃ x ∈ probs, x ≠ 0)
    (hinit : initWithSeed probs = some (P, A)) :
    P.length = probs.length ∧ A.length = probs.length ∧
    (∀ i, i < probs.length → 0 ≤ P.getD i 0 ∧ P.getD i 0 ≤ 1) ∧
    (∀ i, A.getD i 0 < probs.length) :=
  initWithSeed_tables probs hnn
    (ne_of_gt (sum_pos_of_nonneg_ne_zero probs hnn hnz)) P A hinit

theorem claim_C8_witness :
    initWithSeed ([2, 2, 4] : List ℚ) = some ([3/4, 3/4, 1], [2, 2, 0]) ∧
    ([3/4, 3/4, 1] : List ℚ).length = 3 ∧
    (0 ≤ ([3/4, 3/4, 1] : List ℚ).getD 0 0 ∧
      ([3/4, 3/4, 1] : List ℚ).getD 0 0 ≤ 1) ∧
    ([2, 2, 0] : List ℕ).getD 0 0 < 3 := by
  have h := claim_C8_table_ranges [2, 2, 4] [3/4, 3/4, 1] [2, 2, 0]
    (by intro x hx; fin_cases hx <;> norm_num)
    ⟨2, by simp, by norm_num⟩ (by with_unfolding_all rfl)
  exact ⟨by with_unfolding_all rfl, h.1, h.2.2.1 0 (by norm_num),
    h.2.2.2 0⟩

/-- C9, counterexample: on the all-zero two-element weight vector (sum
zero), construction succeeds with no validation, but contrary to the claim
no `NaN` is propagated into the table: the probability table is `[1.0, 1.0]`
and the alias table `[0, 0]`. -/
theorem claim_C9_counterexample :
    initWithSeed [FP.num 0, FP.num 0] =
      some ([FP.num 1, FP.num 1], [0, 0]) ∧
    FP.nan ∉ [FP.num 1, FP.num 1] ∧ FP.nan ∉ ([] : List FP) := by
  refine ⟨by with_unfolding_all rfl, by decide, by decide⟩

/-- C9, amended: construction performs no validation beyond the emptiness
check (every non-empty vector, zero-sum ones included, yields a table), and
the normalization division on a zero-sum vector produces non-finite working
weights; but for the all-zero vector the resulting `NaN` weights all fail
the `>= average` test and land in `small`, the pairing loop never runs, and
the drain step sets every probability entry to `1.0` — the returned tables
contain no `NaN` (probability all `1.0`, alias all `0`), so the table is not
corrupted by `NaN`. -/
theorem claim_C9_amended :
    (∀ probs : List FP, probs ≠ [] → (initWithSeed probs).isSome) ∧
    (∀ n, 0 < n →
      normWeights (List.replicate n (FP.num 0)) = List.replicate n FP.nan ∧
      initWithSeed (List.replicate n (FP.num 0)) =
        some (List.replicate n (FP.num 1), List.replicate n 0)) := by
  constructor
  · intro probs hne
    rw [Option.isSome_iff_ne_none]
    intro h
    exact hne ((initWithSeed_none_iff probs).mp h)
  · intro n hn
    exact ⟨normWeights_zeros n, initWithSeed_zeros n hn⟩

theorem claim_C9_witness :
    (initWithSeed [FP.num 0] ).isSome ∧
    initWithSeed (List.replicate 3 (FP.num 0)) =
      some (List.replicate 3 (FP.num 1), List.replicate 3 0) :=
  ⟨claim_C9_amended.1 [FP.num 0] (by decide),
    (claim_C9_amended.2 3 (by decide)).2⟩

/-- C10: the pairing loop terminates — each iteration pops one index from
each worklist and pushes exactly one back, so the combined worklist size
decreases by one per iteration (visible in the step equation), the loop
performs at most `small.length + large.length - 1` iterations, in
particular at most `n - 1` from the initial worklists, and with fuel at
least the combined size the loop reaches its natural exit with one worklist
empty. -/
theorem claim_C10_termination :
    (∀ (n fuel : ℕ) (w p : List ℚ) (a small large : List ℕ),
      pairSteps n fuel w p a small large ≤ small.length + large.length - 1) ∧
    (∀ (n fuel : ℕ) (w p : List ℚ) (a : List ℕ) (less more : ℕ)
        (small large : List ℕ),
      pairSteps n (fuel + 1) w p a (less :: small) (more :: large) =
        1 + (if 1 / (n : ℚ) ≤ (w.getD more 0 + w.getD less 0) - 1 / (n : ℚ) then
          pairSteps n fuel
            (w.set more ((w.getD more 0 + w.getD less 0) - 1 / (n : ℚ)))
            (p.set less (w.getD less 0 * (n : ℚ))) (a.set less more)
            small (more :: large)
        else
          pairSteps n fuel
            (w.set more ((w.getD more 0 + w.getD less 0) - 1 / (n : ℚ)))
            (p.set less (w.getD less 0 * (n : ℚ))) (a.set less more)
            (more :: small) large)) ∧
    (∀ probs : List ℚ,
      pairSteps probs.length probs.length (normWeights probs)
        (List.replicate probs.length 0) (List.replicate probs.length 0)
        (initialSmall (normWeights probs) probs.length)
        (initialLarge (normWeights probs) probs.length) ≤ probs.length - 1) ∧
    (∀ (n fuel : ℕ) (w p : List ℚ) (a small large : List ℕ),
      small.length + large.length ≤ fuel →
      (pairLoop n fuel w p a small large).small = [] ∨
      (pairLoop n fuel w p a small large).large = []) := by
  refine ⟨fun n fuel w p a small large => pairSteps_le n fuel w p a small large,
    ?_, ?_, fun n fuel w p a small large h => pairLoop_exit n fuel w p a small large h⟩
  · intro n fuel w p a less more small large
    by_cases h : 1 / (n : ℚ) ≤ (w.getD more 0 + w.getD less 0) - 1 / (n : ℚ)
    · rw [pairSteps_cons_gen,
        if_pos (show BLe.ble ((1 : ℚ) / (n : ℚ))
          ((w.getD more 0 + w.getD less 0) - 1 / (n : ℚ)) = true by
            rw [ble_rat]; exact decide_eq_true h),
        if_pos h]
    · rw [pairSteps_cons_gen,
        if_neg (show ¬BLe.ble ((1 : ℚ) / (n : ℚ))
          ((w.getD more 0 + w.getD less 0) - 1 / (n : ℚ)) = true by
            rw [ble_rat]; simpa using h),
        if_neg h]
  · intro probs
    have h := pairSteps_le probs.length probs.length (normWeights probs)
      (List.replicate probs.length 0) (List.replicate probs.length 0)
      (initialSmall (normWeights probs) probs.length)
      (initialLarge (normWeights probs) probs.length)
    rw [initial_length] at h
    exact h

theorem claim_C10_witness :
    pairSteps 2 2 ([1/4, 3/4] : List ℚ) [0, 0] [0, 0] [0] [1] ≤ 1 ∧
    ((pairLoop 2 2 ([1/4, 3/4] : List ℚ) [0, 0] [0, 0] [0] [1]).small = [] ∨
      (pairLoop 2 2 ([1/4, 3/4] : List ℚ) [0, 0] [0, 0] [0] [1]).large = []) :=
  ⟨claim_C10_termination.1 2 2 [1/4, 3/4] [0, 0] [0, 0] [0] [1],
    claim_C10_termination.2.2.2 2 2 [1/4, 3/4] [0, 0] [0, 0] [0] [1]
      (by decide)⟩
